import Mathlib

/-!
Verification of the client-side aggregation-and-visualization pipeline of the
compliance-auditing frontend ("Smart DataGuard / Muhkam").

The repository's chart components are pure view-model transformations over
arrays fetched from a backend.  This file is a shallow embedding of those
transformations: JavaScript numbers are modelled as rationals (`ℚ`), nullable
fields as `Option`, `Math.floor`/`Math.ceil`/`Math.round` as the integer
floor/ceiling operations, and the three-way render state (loading / error /
data-or-empty) as an explicit inductive `View`.  Each embedded definition is a
direct transcription of the corresponding source function.
-/

/-- JavaScript's `Math.round`: round half toward positive infinity,
i.e. `⌊x + 1/2⌋`. -/
def jround (x : ℚ) : ℤ := ⌊x + 1 / 2⌋

/-- The mutually exclusive render states of a data-bearing component:
loading, error (with message), explicit "No data." empty state, and content. -/
inductive View (α : Type) : Type
  | loading : View α
  | error (msg : String) : View α
  | noData : View α
  | content (data : α) : View α

namespace ComplianceHistogram

/-! Embedding of `frontend/src/components/Insights/ComplianceHistogram.tsx`.

`Math.min(...scores)` / `Math.max(...scores)` over a spread array are modelled
by a fold over the list; the `[]` case (where JavaScript would yield
`±Infinity`) is unreachable behind the component's `!scores.length` guard and
is given the junk value `0`. -/

/-- `Math.min(...scores)`. -/
def minVal : List ℚ → ℚ
  | [] => 0
  | x :: xs => xs.foldl min x

/-- `Math.max(...scores)`. -/
def maxVal : List ℚ → ℚ
  | [] => 0
  | x :: xs => xs.foldl max x

/-- `const mean = scores.reduce((acc, n) => acc + n, 0) / (scores.length || 1)`. -/
def meanScore (scores : List ℚ) : ℚ :=
  scores.sum / (if scores.length = 0 then 1 else (scores.length : ℚ))

/-- `const start = Math.floor(minVal / step) * step`. -/
def binStart (scores : List ℚ) (step : ℚ) : ℚ :=
  ⌊minVal scores / step⌋ * step

/-- `const end = Math.ceil(maxVal / step) * step + step`. -/
def binEnd (scores : List ℚ) (step : ℚ) : ℚ :=
  ⌈maxVal scores / step⌉ * step + step

/-- Number of iterations of the bin loop: `(end - start) / step`, which is the
integer `⌈maxVal/step⌉ + 1 - ⌊minVal/step⌋`. -/
def numBins (scores : List ℚ) (step : ℚ) : ℕ :=
  (⌈maxVal scores / step⌉ + 1 - ⌊minVal scores / step⌋).toNat

/-- The loop `for (let b = start; b < end; b += step) bins.push([b, b + step])`,
with the iteration count supplied as explicit fuel. -/
def binLoop (step : ℚ) : ℕ → ℚ → ℚ → List (ℚ × ℚ)
  | 0, _, _ => []
  | n + 1, b, e => if b < e then (b, b + step) :: binLoop step n (b + step) e else []

/-- `const bins: Array<[number, number]> = []; for (let b = start; b < end; b += step) …`. -/
def bins (scores : List ℚ) (step : ℚ) : List (ℚ × ℚ) :=
  binLoop step (numBins scores step) (binStart scores step) (binEnd scores step)

/-- The per-bin membership test `s >= b0 && s < b1`. -/
def inBin (p : ℚ × ℚ) (s : ℚ) : Bool :=
  decide (p.1 ≤ s ∧ s < p.2)

/-- `const counts = bins.map(([b0, b1]) => scores.filter((s) => s >= b0 && s < b1).length)`. -/
def counts (scores : List ℚ) (step : ℚ) : List ℕ :=
  (bins scores step).map (fun p => (scores.filter (fun s => inBin p s)).length)

/-- An RGB color as produced by `hexToRgb`, one integer channel each. -/
structure Rgb where
  r : ℤ
  g : ℤ
  b : ℤ
deriving DecidableEq

/-- `const lerp = (a, b, t) => a + (b - a) * t`. -/
def lerp (a b t : ℚ) : ℚ := a + (b - a) * t

/-- Per-channel linear interpolation with rounding, as in `barColors`
(`Math.round(lerp(c0.r, c1.r, t))`, one channel at a time) and in the `mix`
helper of `DocumentsByType` (`Math.round(ar + (br - ar) * p)`). -/
def mix (c0 c1 : Rgb) (t : ℚ) : Rgb :=
  { r := jround (lerp (c0.r : ℚ) (c1.r : ℚ) t)
  , g := jround (lerp (c0.g : ℚ) (c1.g : ℚ) t)
  , b := jround (lerp (c0.b : ℚ) (c1.b : ℚ) t) }

/-- `const t = centers.length <= 1 ? 0 : i / (centers.length - 1)`:
the rank of element `i` over `max(1, n - 1)`. -/
def tRank (i n : ℕ) : ℚ :=
  if n ≤ 1 then 0 else (i : ℚ) / ((n : ℚ) - 1)

/-- The chart-ready data the component derives once past its guards. -/
structure HistData where
  bins : List (ℚ × ℚ)
  counts : List ℕ
  mean : ℚ

/-- The component's render function: `if (loading) …; if (error) …;
if (!scores.length) return <div>No data.</div>;` and only then the binning. -/
def render (loading : Bool) (err : Option String) (scores : List ℚ) (step : ℚ) :
    View HistData :=
  if loading then .loading
  else
    match err with
    | some m => .error m
    | none =>
        if scores.length = 0 then .noData
        else .content ⟨bins scores step, counts scores step, meanScore scores⟩

/-- The fetch effect's score computation: rows are coerced with
`Number(r?.compliance_score ?? r?.score)` and filtered with `Number.isFinite`
(modelled as `List (Option ℚ)` with `none` for non-finite/absent values); if
no finite value remains, a fallback of
`Array.from({ length: 180 }, () => Math.round(60 + Math.random() * 40))`
is substituted, with `rand i` the value of the i-th `Math.random()` call. -/
def fetchedScores (raw : List (Option ℚ)) (rand : ℕ → ℚ) : List ℚ :=
  let vals := raw.filterMap id
  if vals.length = 0 then
    (List.range 180).map (fun i => ((jround (60 + rand i * 40) : ℤ) : ℚ))
  else vals

end ComplianceHistogram

namespace LegacyHistogram

/-! Embedding of the legacy variant `src/unnamed/part_000`
(`ComplianceHistogram` with a median overlay). -/

/-- `const sorted = [...scores].sort((a, b) => a - b)`: a stable ascending
sort of the samples. -/
def sortedScores (scores : List ℚ) : List ℚ :=
  List.insertionSort (· ≤ ·) scores

/-- `const mid = Math.floor(sorted.length / 2);
const median = sorted.length % 2 === 0 ? (sorted[mid-1] + sorted[mid]) / 2 : sorted[mid]`.
Out-of-range indexing (possible only for `[]`, which the component guards
against) is modelled by `getD _ 0`. -/
def median (scores : List ℚ) : ℚ :=
  let sorted := sortedScores scores
  let mid := sorted.length / 2
  if sorted.length % 2 = 0 then (sorted.getD (mid - 1) 0 + sorted.getD mid 0) / 2
  else sorted.getD mid 0

end LegacyHistogram

namespace Violations

/-! Embedding of the two `ViolationsByIndustry` variants and of the
`companies_by_industry` ranking in `InsightsPage` (`src/unnamed/part_007`). -/

/-- A raw row of the `violations_by_industry` view:
`{ industry: string | null; violations: number | null }`. -/
structure VRow where
  industry : Option String
  violations : Option ℚ
deriving DecidableEq

/-- `const val = r.violations ?? 0`. -/
def vVal (r : VRow) : ℚ := r.violations.getD 0

/-- `const max = Math.max(1, ...rows.map(r => (r.violations ?? 0)))`. -/
def vMax (rows : List VRow) : ℚ :=
  (rows.map (fun r => r.violations.getD 0)).foldl max 1

/-- The ratio the component feeds into its percent computation:
`val / max`, the spec's `percentOfMax`. -/
def percentOfMax (rows : List VRow) (r : VRow) : ℚ :=
  vVal r / vMax rows

/-- One rendered bar of the `frontend/frontend` variant:
`name = r.industry ?? 'Unknown'`, `val = r.violations ?? 0`,
`pct = Math.round((val / max) * 100)`. -/
structure BarItem where
  name : String
  val : ℚ
  pct : ℤ
deriving DecidableEq

/-- `rows.map((r, idx) => { const name = …; const val = …; const pct = …; … })`. -/
def bars (rows : List VRow) : List BarItem :=
  rows.map (fun r =>
    { name := r.industry.getD "Unknown"
    , val := vVal r
    , pct := jround (vVal r / vMax rows * 100) })

/-- Modelled from the spec: the component itself never sorts; it requests
`.order('violations', \x7b ascending: false \x7d)` from the backend, whose
sorting code is not part of this repository.  The spec fixes the contract as
"stable sort descending by `count`, ties broken by original input order"; this
is the insertion step of that stable descending sort (an element is placed
after every earlier element with a strictly greater count, and before the
first element whose count does not exceed its own). -/
def insertByCountDesc (x : VRow) : List VRow → List VRow
  | [] => [x]
  | y :: ys => if vVal x < vVal y then y :: insertByCountDesc x ys else x :: y :: ys

/-- Modelled from the spec: the full stable descending sort performed by the
backend for `.order('violations', \x7b ascending: false \x7d)`. -/
def sortByCountDesc : List VRow → List VRow
  | [] => []
  | x :: xs => insertByCountDesc x (sortByCountDesc xs)

/-- One item of the recharts variant's mapped series:
`{ industry: r.industry ?? 'Unknown', value: Number(r.violations ?? 0) }`. -/
structure VItem where
  industry : String
  value : ℚ
deriving DecidableEq

/-- The mapping applied to a raw row by the recharts variant. -/
def toItem (r : VRow) : VItem :=
  { industry := r.industry.getD "Unknown", value := vVal r }

/-- The recharts variant's series: rows delivered by the backend in stable
descending count order, then `(data ?? []).map(…)`. -/
def series (rows : List VRow) : List VItem :=
  (sortByCountDesc rows).map toItem

/-- The recharts variant's render guards:
`if (loading) …; if (error) …; if (!rows.length) return … No data …`. -/
def render (loading : Bool) (err : Option String) (rows : List VRow) :
    View (List VItem) :=
  if loading then .loading
  else
    match err with
    | some m => .error m
    | none => if rows.length = 0 then .noData else .content (series rows)

/-- The `frontend/frontend` variant's render guards (same three-state shape,
content is the percent bars). -/
def renderBars (loading : Bool) (err : Option String) (rows : List VRow) :
    View (List BarItem) :=
  if loading then .loading
  else
    match err with
    | some m => .error m
    | none => if rows.length = 0 then .noData else .content (bars rows)

end Violations

namespace Companies

/-! Embedding of `frontend/src/components/Insights/CompaniesByIndustry.tsx`. -/

/-- A mapped row: `{ industry: r.industry ?? "Unknown", count: r.c ?? 0 }`. -/
structure CItem where
  industry : String
  count : ℚ
deriving DecidableEq

/-- The component's render states: loading, error, `data.length === 0` →
"No data.", else the chart over the mapped data. -/
def render (loading : Bool) (err : Option String) (data : List CItem) :
    View (List CItem) :=
  if loading then .loading
  else
    match err with
    | some m => .error m
    | none => if data.length = 0 then .noData else .content data

end Companies

namespace Gateway

/-! Embedding of the axios response interceptor in `frontend/src/lib/api.ts`. -/

/-- The error shape the interceptor probes: `e?.response?.data?.detail`,
`e?.response?.data?.message` and `e?.message`, each possibly absent. -/
structure GatewayFailure where
  detail : Option String
  message : Option String
  transport : Option String
deriving DecidableEq

/-- JavaScript's `||` on an optional string against a fallback: an absent or
empty (falsy) string selects the fallback. -/
def jsOrStr (a : Option String) (b : String) : String :=
  match a with
  | some s => if s = "" then b else s
  | none => b

/-- `const msg = e?.response?.data?.detail || e?.response?.data?.message ||
e?.message || 'Request failed'`. -/
def normalizeErrorMessage (e : GatewayFailure) : String :=
  jsOrStr e.detail (jsOrStr e.message (jsOrStr e.transport "Request failed"))

/-- The response interceptor `(r) => r, (e) => Promise.reject(new Error(msg))`:
successes pass through, every failure becomes a single rejection carrying the
normalized message. -/
def responseInterceptor {α : Type} (r : Except GatewayFailure α) : Except String α :=
  match r with
  | .ok v => .ok v
  | .error e => .error (normalizeErrorMessage e)

end Gateway

/-! ## Helper lemmas -/

theorem jround_intCast (z : ℤ) : jround (z : ℚ) = z := by
  unfold jround
  rw [Int.floor_eq_iff]
  constructor
  · norm_num
  · norm_num

/-- The concrete input of the categorical-aggregator end-to-end scenario:
`[{industry:"Tech", count:40}, {industry:"Finance", count:10}, {industry:null, count:5}]`. -/
def scenarioRows : List Violations.VRow :=
  [⟨some "Tech", some 40⟩, ⟨some "Finance", some 10⟩, ⟨none, some 5⟩]

/-! ## Claim theorems -/

/-- C2: on scores `[61, 64, 69, 70, 95]` with `step = 5` the binner emits the
eight half-open bins `[60,65), …, [95,100)` (start `= ⌊61/5⌋*5 = 60`, end
`= ⌈95/5⌉*5 + 5 = 100`), with counts `[2,1,1,0,0,0,0,1]`, and the computed
mean equals `71.8`. -/
theorem histogram_scenario_61_95 :
    ComplianceHistogram.bins [61, 64, 69, 70, 95] 5 =
      [(60, 65), (65, 70), (70, 75), (75, 80), (80, 85), (85, 90), (90, 95), (95, 100)]
    ∧ ComplianceHistogram.counts [61, 64, 69, 70, 95] 5 = [2, 1, 1, 0, 0, 0, 0, 1]
    ∧ ComplianceHistogram.meanScore [61, 64, 69, 70, 95] = 71.8 := by
  have hb : ComplianceHistogram.bins [61, 64, 69, 70, 95] 5 =
      [(60, 65), (65, 70), (70, 75), (75, 80), (80, 85), (85, 90), (90, 95), (95, 100)] := by
    norm_num [ComplianceHistogram.bins, ComplianceHistogram.numBins,
      ComplianceHistogram.binStart, ComplianceHistogram.binEnd,
      ComplianceHistogram.minVal, ComplianceHistogram.maxVal,
      ComplianceHistogram.binLoop, min_def, max_def]
  refine ⟨hb, ?_, ?_⟩
  · rw [ComplianceHistogram.counts, hb]
    decide
  · norm_num [ComplianceHistogram.meanScore]

/-- C3 counterexample: on the scenario rows the aggregator's third element is
labelled `"Unknown"` but carries percent `13`, not `12.5`: the code rounds
`(5 / 40) * 100 = 12.5` with `Math.round`, which yields `13`. -/
theorem violations_percent_rounding_cex :
    Violations.bars scenarioRows =
      [⟨"Tech", 40, 100⟩, ⟨"Finance", 10, 25⟩, ⟨"Unknown", 5, 13⟩]
    ∧ ((13 : ℤ) : ℚ) ≠ 25 / 2 := by
  constructor
  · norm_num [Violations.bars, scenarioRows, Violations.vVal, Violations.vMax,
      jround, max_def]
  · norm_num

/-- C3 amended: given the scenario rows, the aggregator yields the series
`[{label:"Tech", percent:100}, {label:"Finance", percent:25},
{label:"Unknown", percent:13}]` in that order — the null category is coerced
to `"Unknown"`, each percent is `Math.round(count / max * 100)` (so `12.5`
rounds to `13`), and input order is preserved. -/
theorem violations_scenario_amended :
    Violations.bars scenarioRows =
      [⟨"Tech", 40, 100⟩, ⟨"Finance", 10, 25⟩, ⟨"Unknown", 5, 13⟩] := by
  norm_num [Violations.bars, scenarioRows, Violations.vVal, Violations.vMax,
    jround, max_def]

/-- C6: for each aggregator/binner component, an empty (successfully fetched)
input renders the explicit "No data." state; the guard precedes the binning /
aggregation, which is only reached in the `content` branch, and every render
function is total, so no input throws. -/
theorem empty_input_renders_no_data (step : ℚ) :
    ComplianceHistogram.render false none [] step = View.noData
    ∧ Companies.render false none [] = View.noData
    ∧ Violations.render false none [] = View.noData
    ∧ Violations.renderBars false none [] = View.noData :=
  ⟨rfl, rfl, rfl, rfl⟩

/-- C8: the legacy median sorts the samples ascending (the sorted list is a
sorted permutation of the input) and applies the midpoint rule — average of
the two central elements for even length, the central element for odd length;
in particular `median [1,2,3,4] = 2.5` and `median [1,2,3] = 2`. -/
theorem legacy_median_midpoint_rule :
    (∀ scores : List ℚ,
        List.Sorted (· ≤ ·) (LegacyHistogram.sortedScores scores)
        ∧ (LegacyHistogram.sortedScores scores).Perm scores)
    ∧ LegacyHistogram.median [1, 2, 3, 4] = 5 / 2
    ∧ LegacyHistogram.median [1, 2, 3] = 2 := by
  refine ⟨fun scores => ⟨?_, ?_⟩, ?_, ?_⟩
  · exact List.sorted_insertionSort (· ≤ ·) scores
  · exact List.perm_insertionSort (· ≤ ·) scores
  · norm_num [LegacyHistogram.median, LegacyHistogram.sortedScores,
      List.insertionSort, List.orderedInsert]
  · norm_num [LegacyHistogram.median, LegacyHistogram.sortedScores,
      List.insertionSort, List.orderedInsert]

/-- C9: the gradient interpolator is a pure function of `(from, to, t)` —
identical inputs give identical colors — each channel is
`round(from + (to - from) * t)`, `t = 0` returns the `from` endpoint,
`t = 1` returns the `to` endpoint, and the rank mapping sends a
single-element series (`n = 1`) to `t = 0` without dividing by zero. -/
theorem gradient_interpolator_endpoints (c0 c1 : ComplianceHistogram.Rgb) (t : ℚ) (i : ℕ) :
    ComplianceHistogram.mix c0 c1 t = ComplianceHistogram.mix c0 c1 t
    ∧ ComplianceHistogram.mix c0 c1 0 = c0
    ∧ ComplianceHistogram.mix c0 c1 1 = c1
    ∧ ComplianceHistogram.tRank i 1 = 0 := by
  refine ⟨rfl, ?_, ?_, ?_⟩
  · cases c0; cases c1
    simp [ComplianceHistogram.mix, ComplianceHistogram.lerp, jround_intCast]
  · cases c0 with
    | mk r0 g0 b0 =>
      cases c1 with
      | mk r1 g1 b1 =>
        have h : ∀ a b : ℤ, (a : ℚ) + ((b : ℚ) - (a : ℚ)) * 1 = (b : ℚ) := by
          intro a b; ring
        simp [ComplianceHistogram.mix, ComplianceHistogram.lerp, h, jround_intCast]
  · simp [ComplianceHistogram.tRank]

/-- The maximum fold underlying `Math.max(init, ...xs)` never drops below its
initial accumulator. -/
theorem foldl_max_init (l : List ℚ) (a : ℚ) : a ≤ l.foldl max a := by
  induction l generalizing a with
  | nil => exact le_refl a
  | cons x xs ih => exact le_trans (le_max_left a x) (ih (max a x))

/-- Every member of the list bounds `Math.max(init, ...xs)` from below. -/
theorem foldl_max_mem (l : List ℚ) (a s : ℚ) (h : s ∈ l) : s ≤ l.foldl max a := by
  induction l generalizing a with
  | nil => cases h
  | cons x xs ih =>
    rcases List.mem_cons.mp h with rfl | hs
    · exact le_trans (le_max_right a s) (foldl_max_init xs (max a s))
    · exact ih (max a x) hs

/-- `Math.max(init, ...xs)` is bounded by any common upper bound. -/
theorem foldl_max_le (l : List ℚ) (a v : ℚ) (ha : a ≤ v) (h : ∀ x ∈ l, x ≤ v) :
    l.foldl max a ≤ v := by
  induction l generalizing a with
  | nil => exact ha
  | cons x xs ih =>
    exact ih (max a x) (max_le ha (h x (List.mem_cons_self x xs)))
      (fun y hy => h y (List.mem_cons_of_mem x hy))

/-- `Math.min(...xs)` never exceeds its initial accumulator. -/
theorem foldl_min_init (l : List ℚ) (a : ℚ) : l.foldl min a ≤ a := by
  induction l generalizing a with
  | nil => exact le_refl a
  | cons x xs ih => exact le_trans (ih (min a x)) (min_le_left a x)

/-- `Math.min(...xs)` bounds every member of the list from below. -/
theorem foldl_min_mem (l : List ℚ) (a s : ℚ) (h : s ∈ l) : l.foldl min a ≤ s := by
  induction l generalizing a with
  | nil => cases h
  | cons x xs ih =>
    rcases List.mem_cons.mp h with rfl | hs
    · exact le_trans (foldl_min_init xs (min a s)) (min_le_right a s)
    · exact ih (min a x) hs

/-- C4 counterexample: on the one-row input `[{industry:"X", count:0}]` the
(unique, hence maximal-count) element has `percentOfMax = 0/max(1,0) = 0`,
not `1`: the claim's "maximal element has percentOfMax 1" fails when all
counts are zero. -/
theorem percent_of_max_zero_cex :
    Violations.percentOfMax [⟨some "X", some 0⟩] ⟨some "X", some 0⟩ = 0
    ∧ Violations.vMax [⟨some "X", some 0⟩] = 1
    ∧ (0 : ℚ) ≠ 1 := by
  refine ⟨?_, ?_, by norm_num⟩
  · norm_num [Violations.percentOfMax, Violations.vVal, Violations.vMax, max_def]
  · norm_num [Violations.vMax, max_def]

/-- C4 amended: the aggregator computes `percentOfMax = count / max(1, maxCount)`,
whose denominator is always at least `1` (so no division by zero, also when
all counts are zero); and whenever the element of maximal count has count at
least `1`, its `percentOfMax` equals `1` and is rendered as `100`%. -/
theorem percent_of_max_amended (rows : List Violations.VRow) (r : Violations.VRow) :
    1 ≤ Violations.vMax rows
    ∧ (r ∈ rows → (∀ x ∈ rows, Violations.vVal x ≤ Violations.vVal r) →
        1 ≤ Violations.vVal r →
        Violations.vMax rows = Violations.vVal r
        ∧ Violations.percentOfMax rows r = 1
        ∧ jround (Violations.percentOfMax rows r * 100) = 100) := by
  constructor
  · exact foldl_max_init _ 1
  · intro hmem hmax hpos
    have hmaxeq : Violations.vMax rows = Violations.vVal r := by
      apply le_antisymm
      · apply foldl_max_le _ 1 _ hpos
        intro x hx
        rcases List.mem_map.mp hx with ⟨y, hy, rfl⟩
        exact hmax y hy
      · exact foldl_max_mem _ 1 _ (List.mem_map.mpr ⟨r, hmem, rfl⟩)
    have hne : Violations.vVal r ≠ 0 := by positivity
    have hpom : Violations.percentOfMax rows r = 1 := by
      rw [Violations.percentOfMax, hmaxeq, div_self hne]
    refine ⟨hmaxeq, hpom, ?_⟩
    rw [hpom]
    norm_num [jround]

/-- C4 witness: the single-row input `[{industry:"Tech", count:40}]`, whose
maximal element has count `40 ≥ 1`. -/
theorem percent_of_max_amended_witness :
    1 ≤ Violations.vMax [⟨some "Tech", some 40⟩]
    ∧ Violations.vMax [⟨some "Tech", some 40⟩] = Violations.vVal ⟨some "Tech", some 40⟩
    ∧ Violations.percentOfMax [⟨some "Tech", some 40⟩] ⟨some "Tech", some 40⟩ = 1
    ∧ jround (Violations.percentOfMax [⟨some "Tech", some 40⟩] ⟨some "Tech", some 40⟩ * 100)
        = 100 := by
  refine ⟨(percent_of_max_amended [⟨some "Tech", some 40⟩] ⟨some "Tech", some 40⟩).1, ?_⟩
  exact (percent_of_max_amended [⟨some "Tech", some 40⟩] ⟨some "Tech", some 40⟩).2
    (by simp)
    (by
      intro x hx
      rw [List.mem_singleton] at hx
      subst hx
      exact le_refl _)
    (by norm_num [Violations.vVal])

/-- C7 counterexample: with a response body whose `detail` field is present
but the empty string and whose `message` field is `"boom"`, the interceptor
rejects with `"boom"`, not with the present `detail` field: JavaScript `||`
skips falsy (empty) strings, so "detail if present" does not hold. -/
theorem gateway_error_empty_detail_cex :
    (Gateway.GatewayFailure.mk (some "") (some "boom") (some "net")).detail = some ""
    ∧ Gateway.responseInterceptor (α := Unit) (.error ⟨some "", some "boom", some "net"⟩) =
        .error "boom"
    ∧ "boom" ≠ "" := by
  refine ⟨rfl, ?_, by decide⟩
  simp [Gateway.responseInterceptor, Gateway.normalizeErrorMessage, Gateway.jsOrStr]

/-- C7 amended: every failed gateway request is rejected with a single Error
whose message is the first non-empty string among the response body's
`detail` field, the response body's `message` field and the transport error's
own message, and is `"Request failed"` when none of the three is a non-empty
string; no failure kind is ever retried (every failure maps to exactly one
rejection). -/
theorem gateway_error_precedence_amended (e : Gateway.GatewayFailure) :
    (∃ s, Gateway.responseInterceptor (α := Unit) (.error e) = .error s)
    ∧ (∀ d, e.detail = some d → d ≠ "" → Gateway.normalizeErrorMessage e = d)
    ∧ ((e.detail = none ∨ e.detail = some "") →
        ∀ m, e.message = some m → m ≠ "" → Gateway.normalizeErrorMessage e = m)
    ∧ ((e.detail = none ∨ e.detail = some "") →
        (e.message = none ∨ e.message = some "") →
        ∀ t, e.transport = some t → t ≠ "" → Gateway.normalizeErrorMessage e = t)
    ∧ ((e.detail = none ∨ e.detail = some "") →
        (e.message = none ∨ e.message = some "") →
        (e.transport = none ∨ e.transport = some "") →
        Gateway.normalizeErrorMessage e = "Request failed") := by
  obtain ⟨d, m, t⟩ := e
  refine ⟨⟨_, rfl⟩, ?_, ?_, ?_, ?_⟩
  · rintro x rfl hx
    simp [Gateway.normalizeErrorMessage, Gateway.jsOrStr, hx]
  · rintro (rfl | rfl) x rfl hx <;>
      simp [Gateway.normalizeErrorMessage, Gateway.jsOrStr, hx]
  · rintro (rfl | rfl) (rfl | rfl) x rfl hx <;>
      simp [Gateway.normalizeErrorMessage, Gateway.jsOrStr, hx]
  · rintro (rfl | rfl) (rfl | rfl) (rfl | rfl) <;>
      simp [Gateway.normalizeErrorMessage, Gateway.jsOrStr]

/-- C7 witness: a failure carrying a non-empty `detail` field is rejected
with exactly that string. -/
theorem gateway_error_precedence_witness :
    Gateway.normalizeErrorMessage ⟨some "denied", some "other", some "net"⟩ = "denied" :=
  (gateway_error_precedence_amended ⟨some "denied", some "other", some "net"⟩).2.1
    "denied" rfl (by decide)

/-- Membership in the stable-descending insertion step. -/
theorem mem_insertByCountDesc {a x : Violations.VRow} {l : List Violations.VRow} :
    a ∈ Violations.insertByCountDesc x l ↔ a = x ∨ a ∈ l := by
  induction l with
  | nil => simp [Violations.insertByCountDesc]
  | cons y ys ih =>
    rw [Violations.insertByCountDesc]
    by_cases h : Violations.vVal x < Violations.vVal y
    · simp only [if_pos h, List.mem_cons, ih]
      tauto
    · simp only [if_neg h, List.mem_cons]

/-- Inserting into a non-increasing list keeps it non-increasing. -/
theorem sorted_insertByCountDesc (x : Violations.VRow) (l : List Violations.VRow)
    (h : List.Pairwise (fun a b => Violations.vVal b ≤ Violations.vVal a) l) :
    List.Pairwise (fun a b => Violations.vVal b ≤ Violations.vVal a)
      (Violations.insertByCountDesc x l) := by
  induction l with
  | nil => simp [Violations.insertByCountDesc]
  | cons y ys ih =>
    rw [List.pairwise_cons] at h
    rw [Violations.insertByCountDesc]
    by_cases hc : Violations.vVal x < Violations.vVal y
    · rw [if_pos hc, List.pairwise_cons]
      refine ⟨?_, ih h.2⟩
      intro a ha
      rcases mem_insertByCountDesc.mp ha with rfl | ha
      · exact le_of_lt hc
      · exact h.1 a ha
    · rw [if_neg hc, List.pairwise_cons]
      push_neg at hc
      refine ⟨?_, List.pairwise_cons.mpr h⟩
      intro a ha
      rcases List.mem_cons.mp ha with rfl | ha
      · exact hc
      · exact le_trans (h.1 a ha) hc

/-- The modelled backend sort produces a non-increasing row list. -/
theorem sorted_sortByCountDesc (l : List Violations.VRow) :
    List.Pairwise (fun a b => Violations.vVal b ≤ Violations.vVal a)
      (Violations.sortByCountDesc l) := by
  induction l with
  | nil => exact List.Pairwise.nil
  | cons x xs ih => exact sorted_insertByCountDesc x _ ih

/-- Stability of the insertion step: restricted to any one count value `c`,
inserting `x` prepends it when its count is `c` (every element it is placed
behind has a strictly greater count) and otherwise changes nothing. -/
theorem filter_insertByCountDesc (x : Violations.VRow) (l : List Violations.VRow) (c : ℚ) :
    (Violations.insertByCountDesc x l).filter (fun r => decide (Violations.vVal r = c))
      = if Violations.vVal x = c then
          x :: l.filter (fun r => decide (Violations.vVal r = c))
        else l.filter (fun r => decide (Violations.vVal r = c)) := by
  induction l with
  | nil =>
    by_cases h : Violations.vVal x = c <;>
      simp [Violations.insertByCountDesc, List.filter, h]
  | cons y ys ih =>
    rw [Violations.insertByCountDesc]
    by_cases hc : Violations.vVal x < Violations.vVal y
    · rw [if_pos hc]
      by_cases hx : Violations.vVal x = c
      · have hy : ¬ Violations.vVal y = c := by
          intro hy
          rw [hx] at hc
          rw [hy] at hc
          exact lt_irrefl c hc
        simp [List.filter_cons, hx, hy, ih]
      · simp [List.filter_cons, hx, ih]
    · rw [if_neg hc]
      by_cases hx : Violations.vVal x = c <;> simp [List.filter_cons, hx]

/-- Stability of the modelled backend sort: the sublist of rows with any given
count is exactly the input's sublist with that count, in input order. -/
theorem filter_sortByCountDesc (l : List Violations.VRow) (c : ℚ) :
    (Violations.sortByCountDesc l).filter (fun r => decide (Violations.vVal r = c))
      = l.filter (fun r => decide (Violations.vVal r = c)) := by
  induction l with
  | nil => rfl
  | cons x xs ih =>
    rw [Violations.sortByCountDesc, filter_insertByCountDesc]
    by_cases hx : Violations.vVal x = c <;> simp [List.filter_cons, hx, ih]

/-- C5: the aggregator's output series is sorted non-increasing by count, and
for every count value `c` the output elements of count `c` are exactly the
input elements of count `c` in their original input order (a stable
descending sort). -/
theorem violations_series_sorted_stable (rows : List Violations.VRow) (c : ℚ) :
    List.Pairwise (fun a b => b.value ≤ a.value) (Violations.series rows)
    ∧ (Violations.series rows).filter (fun it => decide (it.value = c))
        = (rows.map Violations.toItem).filter (fun it => decide (it.value = c)) := by
  constructor
  · rw [Violations.series, List.pairwise_map]
    exact sorted_sortByCountDesc rows
  · rw [Violations.series, List.filter_map, List.filter_map]
    have hp : ((fun it : Violations.VItem => decide (it.value = c)) ∘ Violations.toItem)
        = (fun r => decide (Violations.vVal r = c)) := rfl
    rw [hp, filter_sortByCountDesc]

/-- C10: if the fetch succeeds but yields no finite numeric value, the
component substitutes exactly 180 scores `Math.round(60 + Math.random()*40)`
— each an integer in `[60, 100]` when every `Math.random()` value lies in
`[0, 1)` — and the fetched score list is therefore never empty, so the
"No data." state is unreachable after any successful fetch. -/
theorem histogram_fallback_scores (raw : List (Option ℚ)) (rand : ℕ → ℚ) (step : ℚ)
    (hr : ∀ i, 0 ≤ rand i ∧ rand i < 1) :
    (raw.filterMap id = [] →
        ComplianceHistogram.fetchedScores raw rand
          = (List.range 180).map (fun i => ((jround (60 + rand i * 40) : ℤ) : ℚ))
        ∧ (ComplianceHistogram.fetchedScores raw rand).length = 180
        ∧ ∀ s ∈ ComplianceHistogram.fetchedScores raw rand,
            ∃ k : ℤ, s = (k : ℚ) ∧ 60 ≤ k ∧ k ≤ 100)
    ∧ ComplianceHistogram.fetchedScores raw rand ≠ []
    ∧ ComplianceHistogram.render false none
        (ComplianceHistogram.fetchedScores raw rand) step ≠ View.noData := by
  have bound : ∀ i, 60 ≤ jround (60 + rand i * 40) ∧ jround (60 + rand i * 40) ≤ 100 := by
    intro i
    obtain ⟨h0, h1⟩ := hr i
    constructor
    · rw [jround, Int.le_floor]
      push_cast
      linarith
    · have h2 : (60 + rand i * 40 + 1 / 2 : ℚ) < ((101 : ℤ) : ℚ) := by
        push_cast
        linarith
      have h3 := Int.floor_lt.mpr h2
      rw [jround]
      omega
  have hne : ComplianceHistogram.fetchedScores raw rand ≠ [] := by
    by_cases hv : raw.filterMap id = []
    · have h0 : (raw.filterMap id).length = 0 := by rw [hv]; rfl
      simp only [ComplianceHistogram.fetchedScores, h0, if_pos]
      simp
    · have h0 : ¬ (raw.filterMap id).length = 0 := by
        simpa [List.length_eq_zero] using hv
      simp only [ComplianceHistogram.fetchedScores, h0, if_neg, if_false]
      simpa using hv
  refine ⟨?_, hne, ?_⟩
  · intro hv
    have h0 : (raw.filterMap id).length = 0 := by rw [hv]; rfl
    have hfe : ComplianceHistogram.fetchedScores raw rand
        = (List.range 180).map (fun i => ((jround (60 + rand i * 40) : ℤ) : ℚ)) := by
      simp only [ComplianceHistogram.fetchedScores, h0, if_pos]
    refine ⟨hfe, by rw [hfe]; simp, ?_⟩
    rw [hfe]
    intro s hs
    rcases List.mem_map.mp hs with ⟨i, _, rfl⟩
    exact ⟨jround (60 + rand i * 40), rfl, (bound i).1, (bound i).2⟩
  · have hl : (ComplianceHistogram.fetchedScores raw rand).length ≠ 0 := by
      simpa [List.length_eq_zero] using hne
    simp [ComplianceHistogram.render, hl]

/-- C10 witness: an empty result set and the constant random source `1/2`. -/
theorem histogram_fallback_scores_witness :
    (ComplianceHistogram.fetchedScores [] (fun _ => 1 / 2)).length = 180
    ∧ ComplianceHistogram.fetchedScores [] (fun _ => 1 / 2) ≠ []
    ∧ ComplianceHistogram.render false none
        (ComplianceHistogram.fetchedScores [] (fun _ => 1 / 2)) 5 ≠ View.noData :=
  ⟨((histogram_fallback_scores [] (fun _ => 1 / 2) 5 (by intro i; norm_num)).1 rfl).2.1,
   (histogram_fallback_scores [] (fun _ => 1 / 2) 5 (by intro i; norm_num)).2.1,
   (histogram_fallback_scores [] (fun _ => 1 / 2) 5 (by intro i; norm_num)).2.2⟩

open ComplianceHistogram

/-- `Math.min(...scores)` bounds every sample from below. -/
theorem minVal_le_mem (scores : List ℚ) (s : ℚ) (h : s ∈ scores) : minVal scores ≤ s := by
  cases scores with
  | nil => cases h
  | cons x xs =>
    rcases List.mem_cons.mp h with rfl | hs
    · exact foldl_min_init xs s
    · exact foldl_min_mem xs x s hs

/-- `Math.max(...scores)` bounds every sample from above. -/
theorem mem_le_maxVal (scores : List ℚ) (s : ℚ) (h : s ∈ scores) : s ≤ maxVal scores := by
  cases scores with
  | nil => cases h
  | cons x xs =>
    rcases List.mem_cons.mp h with rfl | hs
    · exact foldl_max_init xs s
    · exact foldl_max_mem xs x s hs

/-- On a non-empty sample list the minimum does not exceed the maximum. -/
theorem minVal_le_maxVal (scores : List ℚ) (h : scores ≠ []) :
    minVal scores ≤ maxVal scores := by
  cases scores with
  | nil => exact absurd rfl h
  | cons x xs => exact le_trans (foldl_min_init xs x) (foldl_max_init xs x)

/-- The loop's iteration count as an integer, and its positivity: at least one
bin is emitted for a non-empty sample list and positive step. -/
theorem numBins_pos_cast (scores : List ℚ) (step : ℚ) (h : scores ≠ []) (hstep : 0 < step) :
    ((numBins scores step : ℕ) : ℤ) = ⌈maxVal scores / step⌉ + 1 - ⌊minVal scores / step⌋
    ∧ 0 < numBins scores step := by
  have hmm := minVal_le_maxVal scores h
  have h1 : ⌊minVal scores / step⌋ ≤ ⌈maxVal scores / step⌉ :=
    le_trans (Int.floor_le_floor ((div_le_div_iff_of_pos_right hstep).mpr hmm))
      (Int.floor_le_ceil _)
  have h2 : 0 ≤ ⌈maxVal scores / step⌉ + 1 - ⌊minVal scores / step⌋ := by omega
  constructor
  · exact Int.toNat_of_nonneg h2
  · rw [numBins]
    omega

/-- `end - start` is exactly `numBins` steps. -/
theorem binEnd_eq (scores : List ℚ) (step : ℚ) (h : scores ≠ []) (hstep : 0 < step) :
    binEnd scores step = binStart scores step + (numBins scores step : ℚ) * step := by
  have hc := (numBins_pos_cast scores step h hstep).1
  have hq : ((numBins scores step : ℕ) : ℚ)
      = ((⌈maxVal scores / step⌉ + 1 - ⌊minVal scores / step⌋ : ℤ) : ℚ) := by
    rw [← hc]
    push_cast
    ring
  rw [binEnd, binStart, hq]
  push_cast
  ring

/-- The bin loop, run for exactly `N` iterations over a span of `N` steps,
produces the `N` consecutive half-open intervals of width `step`. -/
theorem binLoop_eq_range (step : ℚ) (hstep : 0 < step) :
    ∀ (N : ℕ) (b : ℚ), binLoop step N b (b + (N : ℚ) * step)
      = (List.range N).map
          (fun i : ℕ => (b + (i : ℚ) * step, b + ((i : ℚ) + 1) * step)) := by
  intro N
  induction N with
  | zero => intro b; simp [binLoop]
  | succ n ih =>
    intro b
    have hlt : b < b + ((n + 1 : ℕ) : ℚ) * step := by
      have h0 : (0 : ℚ) < ((n + 1 : ℕ) : ℚ) * step := by positivity
      linarith
    rw [binLoop, if_pos hlt]
    have he : b + ((n + 1 : ℕ) : ℚ) * step = (b + step) + (n : ℚ) * step := by
      push_cast
      ring
    rw [he, ih (b + step)]
    rw [List.range_succ_eq_map, List.map_cons, List.map_map]
    congr 1
    · simp only [Prod.mk.injEq]
      constructor <;> norm_num
    · apply List.map_congr_left
      intro i _
      simp only [Function.comp_apply, Prod.mk.injEq]
      constructor <;> (push_cast; ring)

/-- The component's bins are the `numBins` consecutive half-open intervals
starting at `binStart`. -/
theorem bins_eq_range (scores : List ℚ) (step : ℚ) (h : scores ≠ []) (hstep : 0 < step) :
    bins scores step = (List.range (numBins scores step)).map
      (fun i : ℕ => (binStart scores step + (i : ℚ) * step,
                     binStart scores step + ((i : ℚ) + 1) * step)) := by
  rw [bins, binEnd_eq scores step h hstep]
  exact binLoop_eq_range step hstep (numBins scores step) (binStart scores step)

/-- `Math.floor(min/step)*step` does not exceed the minimum sample. -/
theorem binStart_le_minVal (scores : List ℚ) (step : ℚ) (hstep : 0 < step) :
    binStart scores step ≤ minVal scores := by
  rw [binStart]
  have h1 := Int.floor_le (minVal scores / step)
  calc (⌊minVal scores / step⌋ : ℚ) * step ≤ (minVal scores / step) * step :=
        mul_le_mul_of_nonneg_right h1 (le_of_lt hstep)
    _ = minVal scores := div_mul_cancel₀ _ (ne_of_gt hstep)

/-- The maximum sample lies strictly below `end = Math.ceil(max/step)*step + step`. -/
theorem maxVal_lt_binEnd (scores : List ℚ) (step : ℚ) (hstep : 0 < step) :
    maxVal scores < binEnd scores step := by
  rw [binEnd]
  have h1 := Int.le_ceil (maxVal scores / step)
  have h2 : maxVal scores ≤ (⌈maxVal scores / step⌉ : ℚ) * step := by
    calc maxVal scores
        = (maxVal scores / step) * step := (div_mul_cancel₀ _ (ne_of_gt hstep)).symm
      _ ≤ (⌈maxVal scores / step⌉ : ℚ) * step :=
          mul_le_mul_of_nonneg_right h1 (le_of_lt hstep)
  linarith

/-- `range N` holds exactly one index equal to a fixed `kN < N`. -/
theorem countP_range_eq_one (N kN : ℕ) (h : kN < N) :
    (List.range N).countP (fun i => decide (i = kN)) = 1 := by
  induction N with
  | zero => omega
  | succ n ih =>
    rw [List.range_succ, List.countP_append]
    by_cases hk : kN < n
    · rw [ih hk]
      have hn : ¬ (n = kN) := by omega
      simp [List.countP_cons, hn]
    · have hk2 : kN = n := by omega
      have h0 : (List.range n).countP (fun i => decide (i = kN)) = 0 := by
        rw [List.countP_eq_zero]
        intro a ha
        rw [List.mem_range] at ha
        simp only [decide_eq_true_eq]
        omega
      rw [h0]
      simp [List.countP_cons, hk2]

/-- A sample inside the covered span `[b, b + N*step)` lies in exactly one of
the `N` consecutive half-open bins — the one indexed by `⌊(s-b)/step⌋`. -/
theorem countP_bins_eq_one (b step : ℚ) (hstep : 0 < step) (N : ℕ) (s : ℚ)
    (h1 : b ≤ s) (h2 : s < b + (N : ℚ) * step) :
    ((List.range N).map
        (fun i : ℕ => (b + (i : ℚ) * step, b + ((i : ℚ) + 1) * step))).countP
      (fun p => inBin p s) = 1 := by
  rw [List.countP_map]
  have hk0 : (0 : ℤ) ≤ ⌊(s - b) / step⌋ := by
    apply Int.floor_nonneg.mpr
    apply div_nonneg (by linarith) (le_of_lt hstep)
  set k : ℤ := ⌊(s - b) / step⌋ with hkdef
  have hkN : k < (N : ℤ) := by
    rw [hkdef]
    apply Int.floor_lt.mpr
    rw [div_lt_iff₀ hstep]
    push_cast
    linarith
  have hiff : ∀ i : ℕ, inBin (b + (i : ℚ) * step, b + ((i : ℚ) + 1) * step) s = true
      ↔ i = k.toNat := by
    intro i
    simp only [inBin, decide_eq_true_eq]
    constructor
    · rintro ⟨hl, hr⟩
      have hfl : ⌊(s - b) / step⌋ = (i : ℤ) := by
        rw [Int.floor_eq_iff]
        constructor
        · rw [le_div_iff₀ hstep]
          push_cast
          linarith
        · rw [div_lt_iff₀ hstep]
          push_cast
          linarith
      omega
    · rintro rfl
      have hfl := Int.floor_le ((s - b) / step)
      have hfu := Int.lt_floor_add_one ((s - b) / step)
      rw [← hkdef] at hfl hfu
      have hcast : ((k.toNat : ℕ) : ℚ) = (k : ℚ) := by
        have h4 := Int.toNat_of_nonneg hk0
        exact_mod_cast congrArg (fun z : ℤ => (z : ℚ)) h4
      rw [le_div_iff₀ hstep] at hfl
      rw [div_lt_iff₀ hstep] at hfu
      constructor
      · rw [hcast]
        linarith
      · rw [hcast]
        linarith
  have hcongr : List.countP ((fun p => inBin p s) ∘
      (fun i : ℕ => (b + (i : ℚ) * step, b + ((i : ℚ) + 1) * step))) (List.range N)
      = List.countP (fun i => decide (i = k.toNat)) (List.range N) :=
    List.countP_congr (fun x _ => by
      simp only [Function.comp_apply]
      rw [hiff x]
      simp)
  rw [hcongr]
  exact countP_range_eq_one N k.toNat (by omega)

/-- Sums of pointwise sums split. -/
theorem sum_map_add_nat {α : Type} (l : List α) (f g : α → ℕ) :
    (l.map (fun x => f x + g x)).sum = (l.map f).sum + (l.map g).sum := by
  induction l with
  | nil => rfl
  | cons x xs ih =>
    simp only [List.map_cons, List.sum_cons, ih]
    omega

/-- `countP` as a sum of indicators. -/
theorem countP_eq_sum_map {α : Type} (l : List α) (p : α → Bool) :
    l.countP p = (l.map (fun a => if p a then 1 else 0)).sum := by
  induction l with
  | nil => rfl
  | cons x xs ih =>
    rw [List.countP_cons, List.map_cons, List.sum_cons, ih]
    omega

/-- Summing the constant `1` over a list counts its length. -/
theorem sum_map_one {α : Type} (l : List α) :
    (l.map (fun _ => (1 : ℕ))).sum = l.length := by
  induction l with
  | nil => rfl
  | cons x xs ih =>
    simp only [List.map_cons, List.sum_cons, List.length_cons, ih]
    omega

/-- Double counting: the total of the per-bin filter counts equals the total,
over the samples, of the number of bins containing each sample. -/
theorem counts_sum_swap (bs : List (ℚ × ℚ)) (scores : List ℚ) :
    (bs.map (fun p => (scores.filter (fun s => inBin p s)).length)).sum
      = (scores.map (fun s => bs.countP (fun p => inBin p s))).sum := by
  induction scores with
  | nil => simp
  | cons s rest ih =>
    have hfl : (bs.map (fun p => ((s :: rest).filter (fun x => inBin p x)).length))
        = bs.map (fun p => (rest.filter (fun x => inBin p x)).length
            + (if inBin p s then 1 else 0)) := by
      apply List.map_congr_left
      intro p _
      rw [List.filter_cons]
      by_cases h : inBin p s <;> simp [h]
    rw [hfl, sum_map_add_nat, ih, List.map_cons, List.sum_cons,
      countP_eq_sum_map bs (fun p => inBin p s)]
    omega

/-- Every sample of a non-empty list lies in exactly one of the emitted bins. -/
theorem mem_unique_bin (scores : List ℚ) (step : ℚ) (hne : scores ≠ [])
    (hstep : 0 < step) (s : ℚ) (hs : s ∈ scores) :
    (bins scores step).countP (fun p => inBin p s) = 1 := by
  rw [bins_eq_range scores step hne hstep]
  apply countP_bins_eq_one _ _ hstep _ _
  · calc binStart scores step ≤ minVal scores := binStart_le_minVal scores step hstep
      _ ≤ s := minVal_le_mem scores s hs
  · have h1 : s ≤ maxVal scores := mem_le_maxVal scores s hs
    have h2 : maxVal scores < binEnd scores step := maxVal_lt_binEnd scores step hstep
    have h3 := binEnd_eq scores step hne hstep
    linarith

/-- C1: for every non-empty sample list and positive bin width, the binner
emits the consecutive half-open width-`step` bins from
`start = ⌊min/step⌋*step` through `end = ⌈max/step⌉*step + step` (at least
one bin, and `start + numBins*step = end`), the per-bin counts sum to the
number of samples, and every sample satisfies `lo ≤ s < hi` for exactly one
bin — nothing dropped, nothing double-counted. -/
theorem histogram_binner_partition (scores : List ℚ) (step : ℚ) (hne : scores ≠ [])
    (hstep : 0 < step) :
    bins scores step = (List.range (numBins scores step)).map
      (fun i : ℕ => (binStart scores step + (i : ℚ) * step,
                     binStart scores step + ((i : ℚ) + 1) * step))
    ∧ 0 < numBins scores step
    ∧ binStart scores step + (numBins scores step : ℚ) * step = binEnd scores step
    ∧ (counts scores step).sum = scores.length
    ∧ ∀ s ∈ scores, (bins scores step).countP (fun p => inBin p s) = 1 := by
  refine ⟨bins_eq_range scores step hne hstep,
    (numBins_pos_cast scores step hne hstep).2,
    (binEnd_eq scores step hne hstep).symm, ?_,
    fun s hs => mem_unique_bin scores step hne hstep s hs⟩
  rw [counts, counts_sum_swap]
  have hcg : scores.map (fun s => (bins scores step).countP (fun p => inBin p s))
      = scores.map (fun _ => (1 : ℕ)) :=
    List.map_congr_left (fun s hs => mem_unique_bin scores step hne hstep s hs)
  rw [hcg, sum_map_one]

/-- C1 witness: the scenario samples `[61, 64, 69, 70, 95]` with `step = 5`. -/
theorem histogram_binner_partition_witness :
    ([61, 64, 69, 70, 95] : List ℚ) ≠ []
    ∧ (0 : ℚ) < 5
    ∧ (counts [61, 64, 69, 70, 95] 5).sum = ([61, 64, 69, 70, 95] : List ℚ).length :=
  ⟨by simp, by norm_num,
   (histogram_binner_partition [61, 64, 69, 70, 95] 5 (by simp) (by norm_num)).2.2.2.1⟩
